import Mathlib

/-!
Verification of the data layer of the longbridge terminal dashboard.

The definitions below are a shallow embedding of the Rust sources:
  * src/data/types.rs   (Counter, Market, KlineType, AdjustType, Kline, quote data)
  * src/data/stock.rs   (Stock and its partial-merge update methods)
  * src/data/watchlist.rs (Watchlist::refresh sort)
  * src/kline.rs        (KlineStore: by_pagination / update / clear)
  * src/render/dirty_flags.rs (DirtyFlags bitmask)
  * src/openapi/rate_limiter.rs (RateLimiter::execute retry loop)
  * src/system.rs       (debounced single-flight refresh orchestrator)

Prices are `rust_decimal::Decimal` in the source, an exact decimal type;
they are modelled as `Rat`.  Machine integers are modelled as `Int`/`Nat`
with explicit wrap-around where the source casts (`cast_unsigned`).
-/

/-- Bitwise reinterpretation of an `i64` as a `u64` (`i64::cast_unsigned`). -/
def castUnsigned (i : Int) : Nat := (i % (2 : Int) ^ 64).toNat

/-- Stock identifier, textual form `CODE.MARKET` (src/data/types.rs `Counter`). -/
structure Counter where
  inner : String
deriving DecidableEq

/-- `str::rsplit_once('.')` on a character list: splits at the LAST dot,
returning (part before, part after), or `none` when no dot occurs. -/
def rsplitDot : List Char → Option (List Char × List Char)
  | [] => none
  | c :: rest =>
    match rsplitDot rest with
    | some (a, b) => some (c :: a, b)
    | none => if c = '.' then some ([], rest) else none

/-- `Counter::code` (src/data/types.rs:22): part before the last dot, or the
whole symbol when there is no dot. -/
def Counter.code (c : Counter) : String :=
  match rsplitDot c.inner.data with
  | some (a, _) => ⟨a⟩
  | none => c.inner

/-- `Counter::market` (src/data/types.rs:28): part after the last dot, or the
empty string when there is no dot. -/
def Counter.market (c : Counter) : String :=
  match rsplitDot c.inner.data with
  | some (_, b) => ⟨b⟩
  | none => ""

/-- Market/region enum (src/data/types.rs:320). -/
inductive Market where
  | HK | US | CN | SG
deriving DecidableEq

/-- `impl From<&str> for Market` (src/data/types.rs:328): unrecognized
suffixes fall through to `HK`. -/
def Market.fromStr (s : String) : Market :=
  if s = "US" then .US
  else if s = "CN" ∨ s = "SH" ∨ s = "SZ" then .CN
  else if s = "SG" then .SG
  else .HK

/-- `Counter::region` (src/data/types.rs:35). -/
def Counter.region (c : Counter) : Market := Market.fromStr c.market

/-- Candlestick period type (src/data/types.rs:169), `repr(u8)` 0..8. -/
inductive KlineType where
  | PerMinute | PerFiveMinutes | PerFifteenMinutes | PerThirtyMinutes
  | PerHour | PerDay | PerWeek | PerMonth | PerYear
deriving DecidableEq

/-- The `u8` discriminant of each period (declaration order). -/
def KlineType.toU8 : KlineType → Nat
  | .PerMinute => 0
  | .PerFiveMinutes => 1
  | .PerFifteenMinutes => 2
  | .PerThirtyMinutes => 3
  | .PerHour => 4
  | .PerDay => 5
  | .PerWeek => 6
  | .PerMonth => 7
  | .PerYear => 8

/-- The derived `Ord` comparison `kline_type <= other` used by the source. -/
def KlineType.le (a b : KlineType) : Bool := a.toU8 ≤ b.toU8

/-- Adjustment type (src/data/types.rs:236). -/
inductive AdjustType where
  | NoAdjust | ForwardAdjust
deriving DecidableEq

/-- Candlestick with adjustment factors (src/data/types.rs:244). -/
structure Kline where
  timestamp : Int
  open_ : Rat
  high : Rat
  low : Rat
  close : Rat
  amount : Nat
  balance : Rat
  factor_a : Rat
  factor_b : Rat
  total : Nat
deriving DecidableEq

/-- Trading session (re-exported from the longport SDK; variants as used in
src/data/types.rs:94). -/
inductive TradeSession where
  | Intraday | Pre | Post | Overnight
deriving DecidableEq

/-- `TradeSessionExt::is_normal_trading` (src/data/types.rs:90). -/
def TradeSession.is_normal_trading (s : TradeSession) : Bool :=
  s = TradeSession.Intraday

/-- Trading status (longport SDK; variants as enumerated in
src/data/types.rs:127). -/
inductive TradeStatus where
  | Normal | Halted | Delisted | Fuse | PrepareList | CodeMoved | ToBeOpened
  | SplitStockHalts | Expired | WarrantPrepareList | SuspendTrade
deriving DecidableEq

/-- Currency (src/data/types.rs:297). -/
inductive Currency where
  | HKD | USD | CNY | SGD
deriving DecidableEq

/-- Quote data (src/data/types.rs:509). -/
structure QuoteData where
  last_done : Option Rat
  prev_close : Option Rat
  open_ : Option Rat
  high : Option Rat
  low : Option Rat
  volume : Nat
  turnover : Rat
  timestamp : Int
deriving DecidableEq

/-- One level of the order book (src/data/types.rs:534). -/
structure Depth where
  position : Int
  price : Rat
  volume : Int
  order_num : Int
deriving DecidableEq

/-- Order-book view (src/data/types.rs:543). -/
structure DepthData where
  asks : List Depth
  bids : List Depth
deriving DecidableEq

/-- Static stock information (src/data/types.rs:550). -/
structure StaticInfo where
  symbol : String
  name_cn : String
  name_en : String
  name_hk : String
  exchange : String
  currency : String
  lot_size : Int
  total_shares : Int
  circulating_shares : Int
  hk_shares : Int
  eps : Option Rat
  eps_ttm : Option Rat
  bps : Option Rat
  dividend_yield : Option Rat
  stock_derivatives : List Int
  board : String
deriving DecidableEq

/-- Trade direction (src/data/types.rs:571). -/
inductive TradeDirection where
  | Neutral | Up | Down
deriving DecidableEq

/-- Single trade record (src/data/types.rs:579). -/
structure TradeData where
  price : Rat
  volume : Int
  timestamp : Int
  trade_type : String
  direction : TradeDirection
deriving DecidableEq

/-- Per-symbol cached state (src/data/stock.rs:10). -/
structure Stock where
  counter : Counter
  name : String
  currency : Currency
  trade_status : TradeStatus
  trade_session : TradeSession
  quote : QuoteData
  depth : DepthData
  static_info : Option StaticInfo
  trades : List TradeData
deriving DecidableEq

/-- The fields of the longport SDK `PushQuote` consumed by
`Stock::update_from_push_quote`: carries status and session, no prev-close.
`timestamp` is already the unix timestamp, `volume` the raw `i64`. -/
structure PushQuote where
  last_done : Rat
  open_ : Rat
  high : Rat
  low : Rat
  volume : Int
  turnover : Rat
  timestamp : Int
  trade_status : TradeStatus
  trade_session : TradeSession

/-- The fields of the longport SDK `SecurityQuote` consumed by
`Stock::update_from_security_quote`: carries prev-close and status, but has
no trade-session field. -/
structure SecurityQuote where
  last_done : Rat
  prev_close : Rat
  open_ : Rat
  high : Rat
  low : Rat
  volume : Int
  turnover : Rat
  timestamp : Int
  trade_status : TradeStatus

/-- `Stock::update_from_push_quote` (src/data/stock.rs:53). -/
def Stock.update_from_push_quote (s : Stock) (q : PushQuote) : Stock :=
  { s with
    quote := { s.quote with
      last_done := some q.last_done
      open_ := some q.open_
      high := some q.high
      low := some q.low
      volume := castUnsigned q.volume
      turnover := q.turnover
      timestamp := q.timestamp }
    trade_status := q.trade_status
    trade_session := q.trade_session }

/-- `Stock::update_from_security_quote` (src/data/stock.rs:68). -/
def Stock.update_from_security_quote (s : Stock) (q : SecurityQuote) : Stock :=
  { s with
    quote := { s.quote with
      last_done := some q.last_done
      prev_close := some q.prev_close
      open_ := some q.open_
      high := some q.high
      low := some q.low
      volume := castUnsigned q.volume
      turnover := q.turnover
      timestamp := q.timestamp }
    trade_status := q.trade_status }

/-! ## DirtyFlags (src/render/dirty_flags.rs) -/

namespace DirtyFlags

def WATCHLIST : Nat := 0x001
def STOCK_DETAIL : Nat := 0x002
def PORTFOLIO : Nat := 0x004
def INDEXES : Nat := 0x008
def STATUS_BAR : Nat := 0x800
def DEPTH : Nat := 0x1000

/-- `DirtyFlags::mark_quote_update` (src/render/dirty_flags.rs:51):
`self.insert(WATCHLIST | STOCK_DETAIL | INDEXES | STATUS_BAR)`, where
bitflags `insert` is bitwise or. -/
def mark_quote_update (f : Nat) : Nat :=
  f ||| (WATCHLIST ||| STOCK_DETAIL ||| INDEXES ||| STATUS_BAR)

end DirtyFlags

/-! ## Theorems for C7 (partial-merge frame property of quote updates) -/

/-- C7: partial-merge frame property of quote updates.  The push-shaped
update changes only last_done, open, high, low, volume, turnover, timestamp,
trade_status and trade_session, leaving prev_close (and depth, trades,
static info, name, counter, currency) unchanged; the pull/snapshot-shaped
update changes only last_done, prev_close, open, high, low, volume,
turnover, timestamp and trade_status, leaving trade_session (and depth,
trades, static info, name, counter, currency) unchanged. -/
theorem stock_update_frame (s : Stock) (p : PushQuote) (q : SecurityQuote) :
    ((s.update_from_push_quote p).quote.prev_close = s.quote.prev_close
      ∧ (s.update_from_push_quote p).depth = s.depth
      ∧ (s.update_from_push_quote p).trades = s.trades
      ∧ (s.update_from_push_quote p).static_info = s.static_info
      ∧ (s.update_from_push_quote p).name = s.name
      ∧ (s.update_from_push_quote p).counter = s.counter
      ∧ (s.update_from_push_quote p).currency = s.currency
      ∧ (s.update_from_push_quote p).quote.last_done = some p.last_done
      ∧ (s.update_from_push_quote p).quote.open_ = some p.open_
      ∧ (s.update_from_push_quote p).quote.high = some p.high
      ∧ (s.update_from_push_quote p).quote.low = some p.low
      ∧ (s.update_from_push_quote p).quote.volume = castUnsigned p.volume
      ∧ (s.update_from_push_quote p).quote.turnover = p.turnover
      ∧ (s.update_from_push_quote p).quote.timestamp = p.timestamp
      ∧ (s.update_from_push_quote p).trade_status = p.trade_status
      ∧ (s.update_from_push_quote p).trade_session = p.trade_session)
    ∧ ((s.update_from_security_quote q).trade_session = s.trade_session
      ∧ (s.update_from_security_quote q).depth = s.depth
      ∧ (s.update_from_security_quote q).trades = s.trades
      ∧ (s.update_from_security_quote q).static_info = s.static_info
      ∧ (s.update_from_security_quote q).name = s.name
      ∧ (s.update_from_security_quote q).counter = s.counter
      ∧ (s.update_from_security_quote q).currency = s.currency
      ∧ (s.update_from_security_quote q).quote.last_done = some q.last_done
      ∧ (s.update_from_security_quote q).quote.prev_close = some q.prev_close
      ∧ (s.update_from_security_quote q).quote.open_ = some q.open_
      ∧ (s.update_from_security_quote q).quote.high = some q.high
      ∧ (s.update_from_security_quote q).quote.low = some q.low
      ∧ (s.update_from_security_quote q).quote.volume = castUnsigned q.volume
      ∧ (s.update_from_security_quote q).quote.turnover = q.turnover
      ∧ (s.update_from_security_quote q).quote.timestamp = q.timestamp
      ∧ (s.update_from_security_quote q).trade_status = q.trade_status) := by
  refine ⟨⟨rfl, rfl, rfl, rfl, rfl, rfl, rfl, rfl, rfl, rfl, rfl, rfl, rfl, rfl, rfl, rfl⟩,
    rfl, rfl, rfl, rfl, rfl, rfl, rfl, rfl, rfl, rfl, rfl, rfl, rfl, rfl, rfl, rfl⟩

/-! ## Theorems for C9 (dirty-bit translation of a quote update) -/

/-- Bits of the constant 2059 = bits {0, 1, 3, 11}. -/
theorem quoteMask_testBit (i : Nat) :
    Nat.testBit 2059 i = (decide (i = 0) || decide (i = 1) || decide (i = 3) || decide (i = 11)) := by
  by_cases h : i < 12
  · interval_cases i <;> decide
  · have h12 : (2059 : Nat) < 2 ^ i := by
      calc (2059 : Nat) < 2 ^ 12 := by norm_num
      _ ≤ 2 ^ i := Nat.pow_le_pow_right (by norm_num) (by omega)
    rw [Nat.testBit_lt_two_pow h12]
    have : i ≠ 0 ∧ i ≠ 1 ∧ i ≠ 3 ∧ i ≠ 11 := by omega
    simp [this.1, this.2.1, this.2.2.1, this.2.2.2]

/-- C9: for every starting DirtyFlags value, `mark_quote_update` returns the
union of the input with exactly the four bits WATCHLIST, STOCK_DETAIL,
INDEXES, STATUS_BAR (mask 2059): every bit of the result is the
corresponding input bit or-ed with membership in {0, 1, 3, 11}; no other bit
is set and no set bit is cleared. -/
theorem mark_quote_update_bits (f : Nat) :
    DirtyFlags.mark_quote_update f
        = f ||| (DirtyFlags.WATCHLIST ||| DirtyFlags.STOCK_DETAIL
            ||| DirtyFlags.INDEXES ||| DirtyFlags.STATUS_BAR)
    ∧ (∀ i, (DirtyFlags.mark_quote_update f).testBit i
        = (f.testBit i || (decide (i = 0) || decide (i = 1) || decide (i = 3) || decide (i = 11)))) := by
  refine ⟨rfl, fun i => ?_⟩
  have hm : (DirtyFlags.WATCHLIST ||| DirtyFlags.STOCK_DETAIL
      ||| DirtyFlags.INDEXES ||| DirtyFlags.STATUS_BAR) = 2059 := by decide
  rw [DirtyFlags.mark_quote_update, hm, Nat.testBit_or, quoteMask_testBit]

/-! ## HistoryCache / KlineStore (src/kline.rs) -/

/-- The key of the candle store: (symbol, period, adjustment). -/
abbrev StoreKey := Counter × KlineType × AdjustType

abbrev Klines := List Kline

/-- The map held inside `KlineStore` (src/kline.rs:12): per key, a flag
(written by `update` from its `more` argument and read by `by_pagination`
as `has_more`) and the candle series. -/
abbrev Store := StoreKey → Option (Bool × Klines)

/-- A background candlestick fetch spawned by `by_pagination`
(src/kline.rs:36 and :55): the arguments passed to `Self::request`. -/
structure FetchReq where
  counter : Counter
  kline_type : KlineType
  adjust_type : AdjustType
  before : Int
  count : Nat
deriving DecidableEq

namespace KlineStore

/-- `KlineStore::normalize` (src/kline.rs:133): periods at or below daily
force the adjustment key to `NoAdjust`; larger periods leave it alone. -/
def normalize (kt : KlineType) : Option AdjustType :=
  if kt.le .PerDay then some .NoAdjust else none

/-- The page slice of `by_pagination` (src/kline.rs:47): the window
`[offset.saturating_sub(page_size) .. offset]` where
`offset = len - page*page_size`, or empty when `checked_sub` underflows. -/
def sliceOf (entries : Klines) (page pageSize : Nat) : Klines :=
  if page * pageSize ≤ entries.length then
    (entries.drop (entries.length - page * pageSize - pageSize)).take
      ((entries.length - page * pageSize) - (entries.length - page * pageSize - pageSize))
  else []

/-- The read-time forward-adjustment transform of `by_pagination`
(src/kline.rs:65): OHLC become `raw * factor_a + factor_b`, all other
fields are copied. -/
def adjustK (e : Kline) : Kline :=
  { e with
    open_ := e.open_ * e.factor_a + e.factor_b
    close := e.close * e.factor_a + e.factor_b
    high := e.high * e.factor_a + e.factor_b
    low := e.low * e.factor_a + e.factor_b }

/-- `KlineStore::by_pagination` (src/kline.rs:22), with the two possible
`spawn(Self::request(..))` calls returned as data in the second component. -/
def by_pagination (store : Store) (counter : Counter) (kt : KlineType)
    (adjust : AdjustType) (page pageSize : Nat) : Klines × List FetchReq :=
  match store (counter, kt, (normalize kt).getD adjust) with
  | none => ([], [⟨counter, kt, adjust, 0, (page + 1) * pageSize⟩])
  | some (hasMore, entries) =>
    let results := sliceOf entries page pageSize
    let fetches :=
      if hasMore = true ∧ results.length < pageSize then
        [⟨counter, kt, adjust, ((entries.head?).map Kline.timestamp).getD 0, pageSize⟩]
      else []
    if kt.le .PerDay = true ∧ adjust = .ForwardAdjust then
      (results.map adjustK, fetches)
    else (results, fetches)

/-- `KlineStore::clear` (src/kline.rs:89): `store.clear()` wipes every key. -/
def clear (_ : Store) : Store := fun _ => none

/-- `entry.1.iter_mut().find(|k| k.timestamp == kline.timestamp)` followed by
`*existing = kline` (src/kline.rs:122): replace the first candle with the
same timestamp. -/
def replaceFirst : Klines → Kline → Klines
  | [], _ => []
  | x :: xs, k => if x.timestamp = k.timestamp then k :: xs else x :: replaceFirst xs k

/-- Whether some candle in the list has the given timestamp. -/
def tsMemB (l : Klines) (t : Int) : Bool := l.any fun x => x.timestamp == t

/-- One iteration of the merge loop of `KlineStore::update`
(src/kline.rs:120): replace the first candle sharing the timestamp, else
push to the end. -/
def mergeStep (acc : Klines) (k : Kline) : Klines :=
  if tsMemB acc k.timestamp then replaceFirst acc k else acc ++ [k]

/-- The whole merge loop of `KlineStore::update` over the incoming batch. -/
def mergeKl (pre data : Klines) : Klines := data.foldl mergeStep pre

/-- The comparison used by `entry.1.sort_by_key(|k| k.timestamp)`
(src/kline.rs:130). -/
def tsLe (a b : Kline) : Prop := a.timestamp ≤ b.timestamp

instance : DecidableRel tsLe := fun a b => inferInstanceAs (Decidable (a.timestamp ≤ b.timestamp))

instance : IsTotal Kline tsLe := ⟨fun a b => Int.le_total a.timestamp b.timestamp⟩

instance : IsTrans Kline tsLe := ⟨fun _ _ _ h1 h2 => le_trans h1 h2⟩

/-- Rust stable `sort_by_key(|k| k.timestamp)`, modelled by stable insertion
sort on `tsLe`. -/
def sortKl (l : Klines) : Klines := l.insertionSort tsLe

/-- `KlineStore::update` (src/kline.rs:101): the entry of the normalized key
(defaulting to `(true, [])`) gets its flag overwritten by `more` and its
series merged with the batch and re-sorted by timestamp. -/
def update (store : Store) (counter : Counter) (kt : KlineType)
    (adjust : AdjustType) (data : Klines) (more : Bool) : Store :=
  let key : StoreKey := (counter, kt, (normalize kt).getD adjust)
  let pre := ((store key).map Prod.snd).getD []
  fun k' => if k' = key then some (more, sortKl (mergeKl pre data)) else store k'

/-- The raw (untransformed) page served from a store entry. -/
def rawPage (e : Option (Bool × Klines)) (page pageSize : Nat) : Klines :=
  match e with
  | none => []
  | some (_, entries) => sliceOf entries page pageSize

end KlineStore

/-- The process-wide empty store (`KlineStore::new`, src/kline.rs:16). -/
def emptyStore : Store := fun _ => none

/-- A concrete symbol used in concrete evaluations. -/
def cSymA : Counter := ⟨"A.US"⟩

/-- A second concrete symbol. -/
def cSymB : Counter := ⟨"B.US"⟩

/-- A concrete daily candle whose adjustment factors are not the identity
(factor_a = 2, factor_b = 0). -/
def kDemo : Kline :=
  { timestamp := 1, open_ := 1, high := 1, low := 1, close := 1, amount := 0,
    balance := 0, factor_a := 2, factor_b := 0, total := 0 }

/-- A concrete store holding one daily series for `cSymA` under the
normalized (`NoAdjust`) key. -/
def storeC1 : Store := fun k =>
  if k = (cSymA, KlineType.PerDay, AdjustType.NoAdjust) then some (false, [kDemo]) else none

/-! ## Theorems for C1 (adjustment normalization at read time) -/

/-- C1 counterexample: for a daily (at-or-below-daily) series whose stored
candle has factor_a = 2, `by_pagination` with ForwardAdjust does NOT return
prices identical to NoAdjust — the source applies the `raw*a+b` transform
exactly when the period is at or below daily (src/kline.rs:65), the
opposite of the claim. -/
theorem by_pagination_adjust_claim_cex :
    (KlineStore.by_pagination storeC1 cSymA .PerDay .ForwardAdjust 0 1).1
      ≠ (KlineStore.by_pagination storeC1 cSymA .PerDay .NoAdjust 0 1).1 := by
  have hadj : KlineStore.adjustK kDemo
      = { kDemo with open_ := 2, close := 2, high := 2, low := 2 } := by
    norm_num [KlineStore.adjustK, kDemo]
  have hF : (KlineStore.by_pagination storeC1 cSymA .PerDay .ForwardAdjust 0 1).1
      = [KlineStore.adjustK kDemo] := rfl
  have hN : (KlineStore.by_pagination storeC1 cSymA .PerDay .NoAdjust 0 1).1
      = [kDemo] := rfl
  rw [hF, hN, hadj]
  decide

/-- C1 amended: for periods at or below daily, both adjustments read the
series stored under the `NoAdjust` key; `NoAdjust` returns the raw stored
values and `ForwardAdjust` returns them with OHLC transformed as
`raw*a+b`.  For periods above daily each adjustment reads its own key and
the stored values are returned raw (no read-time transform). -/
theorem by_pagination_adjust_normalized (store : Store) (c : Counter)
    (kt : KlineType) (adj : AdjustType) (page pageSize : Nat) :
    (kt.le .PerDay = true →
      (KlineStore.by_pagination store c kt .ForwardAdjust page pageSize).1
        = ((KlineStore.by_pagination store c kt .NoAdjust page pageSize).1).map KlineStore.adjustK)
    ∧ (kt.le .PerDay = true →
      (KlineStore.by_pagination store c kt .NoAdjust page pageSize).1
        = KlineStore.rawPage (store (c, kt, .NoAdjust)) page pageSize)
    ∧ (kt.le .PerDay = false →
      (KlineStore.by_pagination store c kt adj page pageSize).1
        = KlineStore.rawPage (store (c, kt, adj)) page pageSize) := by
  refine ⟨fun h => ?_, fun h => ?_, fun h => ?_⟩
  · have hn : KlineStore.normalize kt = some .NoAdjust := by
      simp [KlineStore.normalize, h]
    rcases hs : store (c, kt, .NoAdjust) with _ | ⟨hm, entries⟩
    · simp [KlineStore.by_pagination, hn, hs]
    · simp [KlineStore.by_pagination, hn, hs, h]
  · have hn : KlineStore.normalize kt = some .NoAdjust := by
      simp [KlineStore.normalize, h]
    rcases hs : store (c, kt, .NoAdjust) with _ | ⟨hm, entries⟩
    · simp [KlineStore.by_pagination, hn, hs, KlineStore.rawPage]
    · simp [KlineStore.by_pagination, hn, hs, KlineStore.rawPage]
  · have hn : KlineStore.normalize kt = none := by
      simp [KlineStore.normalize, h]
    rcases hs : store (c, kt, adj) with _ | ⟨hm, entries⟩
    · simp [KlineStore.by_pagination, hn, hs, KlineStore.rawPage]
    · simp [KlineStore.by_pagination, hn, hs, h, KlineStore.rawPage]

/-- Witness for the amended C1 theorem at concrete inputs. -/
theorem by_pagination_adjust_normalized_witness :
    ((KlineStore.by_pagination storeC1 cSymA .PerDay .ForwardAdjust 0 1).1
        = ((KlineStore.by_pagination storeC1 cSymA .PerDay .NoAdjust 0 1).1).map KlineStore.adjustK)
    ∧ ((KlineStore.by_pagination storeC1 cSymA .PerDay .NoAdjust 0 1).1
        = KlineStore.rawPage (storeC1 (cSymA, .PerDay, .NoAdjust)) 0 1)
    ∧ ((KlineStore.by_pagination storeC1 cSymA .PerWeek .NoAdjust 0 1).1
        = KlineStore.rawPage (storeC1 (cSymA, .PerWeek, .NoAdjust)) 0 1) :=
  ⟨(by_pagination_adjust_normalized storeC1 cSymA .PerDay .NoAdjust 0 1).1 (by decide),
   (by_pagination_adjust_normalized storeC1 cSymA .PerDay .NoAdjust 0 1).2.1 (by decide),
   (by_pagination_adjust_normalized storeC1 cSymA .PerWeek .NoAdjust 0 1).2.2 (by decide)⟩

/-! ## Theorems for C5 (frame property of the refresh clearing step) -/

/-- A concrete store with series for two distinct symbols. -/
def storeC5 : Store := fun k =>
  if k = (cSymA, KlineType.PerDay, AdjustType.NoAdjust) then some (false, [kDemo])
  else if k = (cSymB, KlineType.PerDay, AdjustType.NoAdjust) then some (true, []) else none

/-- C5 counterexample: the clearing step of the single-symbol refresh body
is `KLINES.clear()` (src/system.rs:663), which wipes the ENTIRE store
(src/kline.rs:92); the entry of a different symbol `cSymB` is not left
unchanged. -/
theorem refresh_clear_frame_cex :
    KlineStore.clear storeC5 (cSymB, KlineType.PerDay, AdjustType.NoAdjust)
      ≠ storeC5 (cSymB, KlineType.PerDay, AdjustType.NoAdjust) := by
  decide

/-- C5 amended: the clearing step of the refresh execution wipes the whole
HistoryCache: after `KlineStore::clear`, every key (the refreshed symbol
and every other one alike) maps to no entry. -/
theorem refresh_clear_wipes_all (store : Store) (k : StoreKey) :
    KlineStore.clear store k = none := rfl

/-! ## Theorems for C8 (cache-miss pagination behavior) -/

/-- The concrete symbol of the C8 scenario. -/
def aapl : Counter := ⟨"AAPL.US"⟩

/-- Five concrete candles with ascending timestamps 1..5 (identity
adjustment factors, as produced by `KlineStore::request`). -/
def demo5 : Klines :=
  [{ timestamp := 1, open_ := 10, high := 11, low := 9, close := 10, amount := 1,
     balance := 0, factor_a := 1, factor_b := 0, total := 0 },
   { timestamp := 2, open_ := 11, high := 12, low := 10, close := 11, amount := 2,
     balance := 0, factor_a := 1, factor_b := 0, total := 0 },
   { timestamp := 3, open_ := 12, high := 13, low := 11, close := 12, amount := 3,
     balance := 0, factor_a := 1, factor_b := 0, total := 0 },
   { timestamp := 4, open_ := 13, high := 14, low := 12, close := 13, amount := 4,
     balance := 0, factor_a := 1, factor_b := 0, total := 0 },
   { timestamp := 5, open_ := 14, high := 15, low := 13, close := 14, amount := 5,
     balance := 0, factor_a := 1, factor_b := 0, total := 0 }]

/-- C8: on a miss of the (normalized) key, `by_pagination` returns an
empty page and schedules exactly one background fetch of
`(page+1)*page_size` most-recent candles; in the concrete scenario, the
empty-cache call for ("AAPL.US", daily, NoAdjust) page 0 size 5 returns
`[]` and schedules a fetch of 5 candles, and after `update` delivers 5
ascending candles with `has_more = false` the same call returns exactly
those candles unmodified and schedules no further fetch. -/
theorem by_pagination_miss_and_refill :
    (∀ (store : Store) (c : Counter) (kt : KlineType) (adj : AdjustType) (page pageSize : Nat),
      store (c, kt, (KlineStore.normalize kt).getD adj) = none →
      KlineStore.by_pagination store c kt adj page pageSize
        = ([], [⟨c, kt, adj, 0, (page + 1) * pageSize⟩]))
    ∧ KlineStore.by_pagination emptyStore aapl .PerDay .NoAdjust 0 5
        = ([], [⟨aapl, .PerDay, .NoAdjust, 0, 5⟩])
    ∧ KlineStore.by_pagination
        (KlineStore.update emptyStore aapl .PerDay .NoAdjust demo5 false)
        aapl .PerDay .NoAdjust 0 5
      = (demo5, []) := by
  refine ⟨fun store c kt adj page pageSize h => ?_, by decide, by decide⟩
  unfold KlineStore.by_pagination
  rw [h]

/-- Witness for the C8 theorem: the miss branch evaluated at a concrete
store, key and page. -/
theorem by_pagination_miss_and_refill_witness :
    KlineStore.by_pagination emptyStore cSymA .PerWeek .ForwardAdjust 1 2
      = ([], [⟨cSymA, .PerWeek, .ForwardAdjust, 0, 4⟩]) :=
  by_pagination_miss_and_refill.1 emptyStore cSymA .PerWeek .ForwardAdjust 1 2 (by decide)

/-! ## Watchlist sort (src/data/watchlist.rs) -/

/-- `Option::is_some_and` as used at src/data/watchlist.rs:99. -/
def optIsSomeAnd {α : Type} (o : Option α) (f : α → Bool) : Bool :=
  match o with
  | none => false
  | some x => f x

/-- The market priority table local to `Watchlist::refresh`
(src/data/watchlist.rs:82).  It keys on the RAW market string: the literal
suffix "CN" (and the empty suffix) fall through to 99, after "SG". -/
def marketPriority (m : String) : Nat :=
  if m = "US" then 0
  else if m = "HK" then 1
  else if m = "SH" ∨ m = "SZ" then 2
  else if m = "SG" then 3
  else 99

/-- Derived `Ord` on `bool` (false < true), as in `a_normal.cmp(&b_normal)`. -/
def bcmp : Bool → Bool → Ordering
  | false, false => .eq
  | false, true => .lt
  | true, false => .gt
  | true, true => .eq

/-- Lexicographic comparison of code point sequences; `str::cmp` (byte
lexicographic on UTF-8) agrees with code-point lexicographic order. -/
def lexN : List Nat → List Nat → Ordering
  | [], [] => .eq
  | [], _ :: _ => .lt
  | _ :: _, [] => .gt
  | a :: as, b :: bs =>
    match compare a b with
    | .eq => lexN as bs
    | o => o

/-- The code points of the symbol text. -/
def charNats (c : Counter) : List Nat := c.inner.data.map Char.toNat

/-- `a.as_str().cmp(b.as_str())` (src/data/watchlist.rs:116). -/
def strCmp (a b : Counter) : Ordering := lexN (charNats a) (charNats b)

/-- The comparator of `Watchlist::refresh` (src/data/watchlist.rs:94):
normal-trading-session flag first (reversed, so in-session symbols come
first), then the market priority of the raw market string, then the full
symbol text.  The global stock cache lookup `STOCKS.get(a)` is passed in as
the function `stocks`, returning the cached trade session. -/
def cmpW (stocks : Counter → Option TradeSession) (a b : Counter) : Ordering :=
  match (bcmp (optIsSomeAnd (stocks a) TradeSession.is_normal_trading)
      (optIsSomeAnd (stocks b) TradeSession.is_normal_trading)).swap with
  | .eq =>
    match compare (marketPriority a.market) (marketPriority b.market) with
    | .eq => strCmp a b
    | o => o
  | o => o

/-- Rust `sort_by` sorts ascending with respect to the comparator; the
non-strict order is "comparator does not say greater". -/
def wle (stocks : Counter → Option TradeSession) (a b : Counter) : Prop :=
  cmpW stocks a b ≠ .gt

instance (stocks : Counter → Option TradeSession) : DecidableRel (wle stocks) := fun a b =>
  inferInstanceAs (Decidable (cmpW stocks a b ≠ .gt))

/-- `Watchlist::refresh` (src/data/watchlist.rs:80): a stable ascending
re-sort of the stored symbols by the comparator `cmpW`. -/
def Watchlist.refresh (stocks : Counter → Option TradeSession)
    (counters : List Counter) : List Counter :=
  counters.insertionSort (wle stocks)

/-! Order theory for the comparator. -/

/-- The sort key realized by the comparator chain. -/
def keyW (stocks : Counter → Option TradeSession) (a : Counter) : Nat × Nat × List Nat :=
  (cond (optIsSomeAnd (stocks a) TradeSession.is_normal_trading) 0 1,
   marketPriority a.market, charNats a)

/-- Lexicographic comparison of the sort keys. -/
def lexK (x y : Nat × Nat × List Nat) : Ordering :=
  match compare x.1 y.1 with
  | .eq =>
    match compare x.2.1 y.2.1 with
    | .eq => lexN x.2.2 y.2.2
    | o => o
  | o => o

theorem lexN_swap : ∀ a b, (lexN a b).swap = lexN b a
  | [], [] => rfl
  | [], _ :: _ => rfl
  | _ :: _, [] => rfl
  | a :: as, b :: bs => by
    simp only [lexN]
    cases h : compare a b with
    | eq =>
      have h2 : compare b a = .eq := by rw [← Nat.compare_swap, h]; rfl
      rw [h2]
      exact lexN_swap as bs
    | lt =>
      have h2 : compare b a = .gt := by rw [← Nat.compare_swap, h]; rfl
      rw [h2]
      rfl
    | gt =>
      have h2 : compare b a = .lt := by rw [← Nat.compare_swap, h]; rfl
      rw [h2]
      rfl

theorem lexN_eq_iff : ∀ a b, lexN a b = .eq ↔ a = b
  | [], [] => by simp [lexN]
  | [], _ :: _ => by simp [lexN]
  | _ :: _, [] => by simp [lexN]
  | a :: as, b :: bs => by
    simp only [lexN]
    cases h : compare a b with
    | eq =>
      have hab : a = b := Nat.compare_eq_eq.1 h
      simp [hab, lexN_eq_iff as bs]
    | lt =>
      have hab : a ≠ b := Nat.ne_of_lt (Nat.compare_eq_lt.1 h)
      simp [hab]
    | gt =>
      have hab : a ≠ b := Nat.ne_of_gt (Nat.compare_eq_gt.1 h)
      simp [hab]

theorem lexN_lt_trans : ∀ a b c, lexN a b = .lt → lexN b c = .lt → lexN a c = .lt
  | [], [], _, h1, _ => by simp [lexN] at h1
  | [], _ :: _, [], _, h2 => by simp [lexN] at h2
  | [], _ :: _, _ :: _, _, _ => rfl
  | _ :: _, [], _, h1, _ => by simp [lexN] at h1
  | _ :: _, _ :: _, [], _, h2 => by simp [lexN] at h2
  | a :: as, b :: bs, c :: cs, h1, h2 => by
    simp only [lexN] at h1 h2 ⊢
    cases hab : compare a b with
    | gt => rw [hab] at h1; exact absurd h1 (by simp)
    | lt =>
      cases hbc : compare b c with
      | gt => rw [hbc] at h2; exact absurd h2 (by simp)
      | lt =>
        have : compare a c = .lt :=
          Nat.compare_eq_lt.2 (Nat.lt_trans (Nat.compare_eq_lt.1 hab) (Nat.compare_eq_lt.1 hbc))
        rw [this]
      | eq =>
        have hbceq : b = c := Nat.compare_eq_eq.1 hbc
        rw [← hbceq, hab]
    | eq =>
      have habeq : a = b := Nat.compare_eq_eq.1 hab
      rw [hab] at h1
      cases hbc : compare b c with
      | gt => rw [hbc] at h2; exact absurd h2 (by simp)
      | lt => rw [habeq, hbc]
      | eq =>
        rw [hbc] at h2
        rw [habeq, hbc]
        exact lexN_lt_trans as bs cs h1 h2

theorem lexK_swap (x y : Nat × Nat × List Nat) : (lexK x y).swap = lexK y x := by
  obtain ⟨x1, x2, x3⟩ := x
  obtain ⟨y1, y2, y3⟩ := y
  simp only [lexK]
  cases h1 : compare x1 y1 with
  | eq =>
    have g1 : compare y1 x1 = .eq := by rw [← Nat.compare_swap, h1]; rfl
    rw [g1]
    cases h2 : compare x2 y2 with
    | eq =>
      have g2 : compare y2 x2 = .eq := by rw [← Nat.compare_swap, h2]; rfl
      rw [g2]
      exact lexN_swap x3 y3
    | lt =>
      have g2 : compare y2 x2 = .gt := by rw [← Nat.compare_swap, h2]; rfl
      rw [g2]; rfl
    | gt =>
      have g2 : compare y2 x2 = .lt := by rw [← Nat.compare_swap, h2]; rfl
      rw [g2]; rfl
  | lt =>
    have g1 : compare y1 x1 = .gt := by rw [← Nat.compare_swap, h1]; rfl
    rw [g1]; rfl
  | gt =>
    have g1 : compare y1 x1 = .lt := by rw [← Nat.compare_swap, h1]; rfl
    rw [g1]; rfl

theorem lexK_eq_iff (x y : Nat × Nat × List Nat) : lexK x y = .eq ↔ x = y := by
  obtain ⟨x1, x2, x3⟩ := x
  obtain ⟨y1, y2, y3⟩ := y
  simp only [lexK]
  cases h1 : compare x1 y1 with
  | eq =>
    have e1 : x1 = y1 := Nat.compare_eq_eq.1 h1
    cases h2 : compare x2 y2 with
    | eq =>
      have e2 : x2 = y2 := Nat.compare_eq_eq.1 h2
      simp [e1, e2, lexN_eq_iff x3 y3]
    | lt => simp [Nat.ne_of_lt (Nat.compare_eq_lt.1 h2)]
    | gt => simp [Nat.ne_of_gt (Nat.compare_eq_gt.1 h2)]
  | lt => simp [Nat.ne_of_lt (Nat.compare_eq_lt.1 h1)]
  | gt => simp [Nat.ne_of_gt (Nat.compare_eq_gt.1 h1)]

theorem lexK_lt_trans (x y z : Nat × Nat × List Nat) :
    lexK x y = .lt → lexK y z = .lt → lexK x z = .lt := by
  obtain ⟨x1, x2, x3⟩ := x
  obtain ⟨y1, y2, y3⟩ := y
  obtain ⟨z1, z2, z3⟩ := z
  intro h1 h2
  simp only [lexK] at h1 h2 ⊢
  cases hxy1 : compare x1 y1 with
  | gt => rw [hxy1] at h1; exact absurd h1 (by simp)
  | lt =>
    cases hyz1 : compare y1 z1 with
    | gt => rw [hyz1] at h2; exact absurd h2 (by simp)
    | lt =>
      have : compare x1 z1 = .lt :=
        Nat.compare_eq_lt.2 (Nat.lt_trans (Nat.compare_eq_lt.1 hxy1) (Nat.compare_eq_lt.1 hyz1))
      rw [this]
    | eq =>
      have e : y1 = z1 := Nat.compare_eq_eq.1 hyz1
      rw [← e, hxy1]
  | eq =>
    have e1 : x1 = y1 := Nat.compare_eq_eq.1 hxy1
    rw [hxy1] at h1
    cases hyz1 : compare y1 z1 with
    | gt => rw [hyz1] at h2; exact absurd h2 (by simp)
    | lt => rw [e1, hyz1]
    | eq =>
      rw [hyz1] at h2
      rw [e1, hyz1]
      cases hxy2 : compare x2 y2 with
      | gt => rw [hxy2] at h1; exact absurd h1 (by simp)
      | lt =>
        cases hyz2 : compare y2 z2 with
        | gt => rw [hyz2] at h2; exact absurd h2 (by simp)
        | lt =>
          have : compare x2 z2 = .lt :=
            Nat.compare_eq_lt.2
              (Nat.lt_trans (Nat.compare_eq_lt.1 hxy2) (Nat.compare_eq_lt.1 hyz2))
          rw [this]
        | eq =>
          have e : y2 = z2 := Nat.compare_eq_eq.1 hyz2
          rw [← e, hxy2]
      | eq =>
        have e2 : x2 = y2 := Nat.compare_eq_eq.1 hxy2
        rw [hxy2] at h1
        cases hyz2 : compare y2 z2 with
        | gt => rw [hyz2] at h2; exact absurd h2 (by simp)
        | lt => rw [e2, hyz2]
        | eq =>
          rw [hyz2] at h2
          rw [e2, hyz2]
          exact lexN_lt_trans x3 y3 z3 h1 h2

theorem cmpW_eq_lexK (stocks : Counter → Option TradeSession) (a b : Counter) :
    cmpW stocks a b = lexK (keyW stocks a) (keyW stocks b) := by
  cases hA : optIsSomeAnd (stocks a) TradeSession.is_normal_trading <;>
    cases hB : optIsSomeAnd (stocks b) TradeSession.is_normal_trading <;>
      simp only [cmpW, keyW, lexK, hA, hB, bcmp, Ordering.swap, cond] <;> rfl

theorem cmpW_swap (stocks : Counter → Option TradeSession) (a b : Counter) :
    (cmpW stocks a b).swap = cmpW stocks b a := by
  rw [cmpW_eq_lexK, cmpW_eq_lexK, lexK_swap]

instance (stocks : Counter → Option TradeSession) : IsTotal Counter (wle stocks) := by
  constructor
  intro a b
  unfold wle
  cases h : cmpW stocks a b with
  | lt => exact Or.inl (by simp)
  | eq => exact Or.inl (by simp)
  | gt =>
    refine Or.inr ?_
    have : cmpW stocks b a = .lt := by rw [← cmpW_swap, h]; rfl
    simp [this]

instance (stocks : Counter → Option TradeSession) : IsTrans Counter (wle stocks) := by
  constructor
  intro a b c hab hbc
  unfold wle at hab hbc ⊢
  rw [cmpW_eq_lexK] at hab hbc ⊢
  cases h1 : lexK (keyW stocks a) (keyW stocks b) with
  | gt => exact absurd h1 hab
  | eq =>
    rw [(lexK_eq_iff _ _).1 h1]
    exact hbc
  | lt =>
    cases h2 : lexK (keyW stocks b) (keyW stocks c) with
    | gt => exact absurd h2 hbc
    | eq =>
      rw [← (lexK_eq_iff _ _).1 h2]
      simp [h1]
    | lt => simp [lexK_lt_trans _ _ _ h1 h2]

/-! ## Theorems for C6 (watchlist sort order) -/

/-- Concrete out-of-session symbols with literal market suffixes CN and SG. -/
def cnSym : Counter := ⟨"0001.CN"⟩

def sgSym : Counter := ⟨"0001.SG"⟩

/-- C6 counterexample: with no cached sessions (equal session status), the
re-sort places the SG symbol BEFORE the literal-suffix CN symbol, because
`market_priority` keys on the raw market string ("SH"/"SZ" get 2, but "CN"
falls to the default 99 > 3); the claim says CN precedes SG. -/
theorem watchlist_sort_cn_cex :
    Watchlist.refresh (fun _ => none) [cnSym, sgSym] = [sgSym, cnSym] := by
  decide

/-- C6 amended: the re-sorted list is a permutation of the stored symbols,
ordered so that (a) symbols whose cached session is the normal (intraday)
session precede all others; (b) among symbols with equal session status,
order is by the priority of the raw market string — US (0), HK (1), SH or
SZ (2), SG (3), any other suffix including the literal "CN" or a missing
suffix (99); (c) within equal priority, ascending by the full symbol
text. -/
theorem watchlist_refresh_sort (stocks : Counter → Option TradeSession)
    (counters : List Counter) :
    (Watchlist.refresh stocks counters).Perm counters
    ∧ List.Pairwise (wle stocks) (Watchlist.refresh stocks counters)
    ∧ (∀ a b : Counter,
        wle stocks a b ↔
          ((optIsSomeAnd (stocks a) TradeSession.is_normal_trading = true
              ∧ optIsSomeAnd (stocks b) TradeSession.is_normal_trading = false)
           ∨ (optIsSomeAnd (stocks a) TradeSession.is_normal_trading
                = optIsSomeAnd (stocks b) TradeSession.is_normal_trading
              ∧ (marketPriority a.market < marketPriority b.market
                 ∨ (marketPriority a.market = marketPriority b.market
                    ∧ lexN (charNats a) (charNats b) ≠ .gt))))) := by
  refine ⟨List.perm_insertionSort _ _, List.sorted_insertionSort _ _, fun a b => ?_⟩
  cases hA : optIsSomeAnd (stocks a) TradeSession.is_normal_trading <;>
    cases hB : optIsSomeAnd (stocks b) TradeSession.is_normal_trading <;>
      simp only [wle, cmpW, hA, hB, bcmp, Ordering.swap, strCmp]
  · cases hc : compare (marketPriority a.market) (marketPriority b.market) with
    | lt => simp [Nat.compare_eq_lt.1 hc]
    | eq =>
      have he := Nat.compare_eq_eq.1 hc
      simp [he]
    | gt =>
      have hgt := Nat.compare_eq_gt.1 hc
      simp [Nat.lt_asymm hgt]
      intro he
      exact absurd he (Nat.ne_of_gt hgt)
  · simp
  · simp
  · cases hc : compare (marketPriority a.market) (marketPriority b.market) with
    | lt => simp [Nat.compare_eq_lt.1 hc]
    | eq =>
      have he := Nat.compare_eq_eq.1 hc
      simp [he]
    | gt =>
      have hgt := Nat.compare_eq_gt.1 hc
      simp [Nat.lt_asymm hgt]
      intro he
      exact absurd he (Nat.ne_of_gt hgt)

/-! ## Theorems for C10 (symbols without a market suffix) -/

theorem rsplitDot_of_no_dot : ∀ l : List Char, '.' ∉ l → rsplitDot l = none
  | [], _ => rfl
  | c :: rest, h => by
    have hc : ¬(c = '.') := fun e => h (e ▸ List.mem_cons_self c rest)
    have hr : rsplitDot rest = none :=
      rsplitDot_of_no_dot rest (fun hm => h (List.mem_cons_of_mem c hm))
    simp [rsplitDot, hr, hc]

/-- A symbol with no market suffix. -/
def btcSym : Counter := ⟨"BTCUSD"⟩

/-- A symbol with the HK market suffix. -/
def hkSym : Counter := ⟨"0001.HK"⟩

/-- C10 counterexample: a symbol without a market suffix has region HK, but
it is NOT sorted as an HK-market instrument: the watchlist sort keys on the
raw market string, so the suffixless symbol gets priority 99 and lands
after an SG symbol, while a genuine HK symbol sorts before SG. -/
theorem counter_no_suffix_sort_cex :
    btcSym.region = Market.HK
    ∧ Watchlist.refresh (fun _ => none) [btcSym, sgSym] = [sgSym, btcSym]
    ∧ Watchlist.refresh (fun _ => none) [hkSym, sgSym] = [hkSym, sgSym] := by
  decide

/-- C10 amended: for a symbol whose textual form contains no dot, `market`
returns the empty string, `code` returns the whole symbol and `region` maps
it to HK (the default of the market-string conversion), and any
unrecognized market suffix is likewise mapped to HK; but in the watchlist
sort such symbols get the catch-all priority 99 (after SG), not the HK
priority — they are classified as HK only by `region`, not by the sort. -/
theorem counter_no_suffix_parse (c : Counter) (m : String) :
    ('.' ∉ c.inner.data →
      c.market = "" ∧ c.code = c.inner ∧ c.region = Market.HK
        ∧ marketPriority c.market = 99)
    ∧ (m ≠ "US" → m ≠ "CN" → m ≠ "SH" → m ≠ "SZ" → m ≠ "SG" →
        Market.fromStr m = Market.HK) := by
  constructor
  · intro h
    have hr := rsplitDot_of_no_dot c.inner.data h
    have hm : c.market = "" := by simp [Counter.market, hr]
    refine ⟨hm, ?_, ?_, ?_⟩
    · simp [Counter.code, hr]
    · simp [Counter.region, hm, Market.fromStr]
    · simp [hm, marketPriority]
  · intro h1 h2 h3 h4 h5
    simp [Market.fromStr, h1, h2, h3, h4, h5]

/-- Witness for the C10 amended theorem at concrete inputs. -/
theorem counter_no_suffix_parse_witness :
    (btcSym.market = "" ∧ btcSym.code = btcSym.inner ∧ btcSym.region = Market.HK
      ∧ marketPriority btcSym.market = 99)
    ∧ Market.fromStr "UK" = Market.HK :=
  ⟨(counter_no_suffix_parse btcSym "UK").1 (by decide),
   (counter_no_suffix_parse btcSym "UK").2 (by decide) (by decide) (by decide)
     (by decide) (by decide)⟩

/-! ## RateLimiter::execute (src/openapi/rate_limiter.rs:103) -/

/-- Whether `needle` is an initial run of `hay`. -/
def leadsWith : List Char → List Char → Bool
  | [], _ => true
  | _ :: _, [] => false
  | a :: as, b :: bs => a == b && leadsWith as bs

/-- Whether `needle` occurs contiguously anywhere in `hay`. -/
def hasSub (needle : List Char) : List Char → Bool
  | [] => leadsWith needle []
  | c :: rest => leadsWith needle (c :: rest) || hasSub needle rest

/-- Rust `str::contains` for literal needles: `hay.contains(needle)`. -/
def strContains (hay needle : String) : Bool := hasSub needle.data hay.data

/-- The rate-limit heuristic of `RateLimiter::execute`
(src/openapi/rate_limiter.rs:132): the display string of the error
contains "429", "rate limit" or "too many requests". -/
def is_rate_limit_error (msg : String) : Bool :=
  strContains msg "429" || strContains msg "rate limit" || strContains msg "too many requests"

/-- The retry loop of `RateLimiter::execute` (src/openapi/rate_limiter.rs:112).
`op` is the (attempt-indexed) outcome of each invocation of the operation;
`display` renders an error as Rust `format!` does.  `retriesLeft` counts
`MAX_RETRIES - retry_count`, so the source guard `retry_count < MAX_RETRIES`
is `retriesLeft > 0`.  Returns the final result together with the total
number of invocations of the operation. -/
def executeGo {T E : Type} (display : E → String) (op : Nat → Except E T) :
    Nat → Nat → Except E T × Nat
  | a, rl =>
    match op a with
    | .ok r => (.ok r, a + 1)
    | .error e =>
      match rl with
      | 0 => (.error e, a + 1)
      | rl' + 1 =>
        if is_rate_limit_error (display e) then executeGo display op (a + 1) rl'
        else (.error e, a + 1)

/-- `RateLimiter::execute` (src/openapi/rate_limiter.rs:103):
`retry_count` starts at 0 and `MAX_RETRIES` is 3. -/
def RateLimiter.execute {T E : Type} (display : E → String) (op : Nat → Except E T) :
    Except E T × Nat :=
  executeGo display op 0 3

theorem executeGo_run_ok {T E : Type} (display : E → String) (op : Nat → Except E T) :
    ∀ (k a rl : Nat) (r : T), k ≤ rl →
      (∀ i, i < k → ∃ e, op (a + i) = .error e ∧ is_rate_limit_error (display e) = true) →
      op (a + k) = .ok r →
      executeGo display op a rl = (.ok r, a + k + 1)
  | 0, a, rl, r, _, _, hok => by
    rw [Nat.add_zero] at hok
    simp [executeGo, hok]
  | k + 1, a, rl, r, hb, herr, hok => by
    obtain ⟨e, he, hrl⟩ := herr 0 (Nat.succ_pos k)
    rw [Nat.add_zero] at he
    obtain ⟨rl', rfl⟩ : ∃ rl', rl = rl' + 1 := ⟨rl - 1, by omega⟩
    have step := executeGo_run_ok display op k (a + 1) rl' r (by omega)
      (fun i hi => by
        obtain ⟨e2, he2, hrl2⟩ := herr (i + 1) (by omega)
        exact ⟨e2, by rw [show a + 1 + i = a + (i + 1) by omega]; exact he2, hrl2⟩)
      (by rw [show a + 1 + k = a + (k + 1) by omega]; exact hok)
    rw [executeGo, he]
    simp only [hrl, if_true]
    rw [step]
    rw [show a + 1 + k + 1 = a + (k + 1) + 1 by omega]

theorem executeGo_run_stop {T E : Type} (display : E → String) (op : Nat → Except E T) :
    ∀ (k a rl : Nat) (e : E), k ≤ rl →
      (∀ i, i < k → ∃ e2, op (a + i) = .error e2 ∧ is_rate_limit_error (display e2) = true) →
      op (a + k) = .error e → is_rate_limit_error (display e) = false →
      executeGo display op a rl = (.error e, a + k + 1)
  | 0, a, rl, e, _, _, herr0, hnot => by
    rw [Nat.add_zero] at herr0
    cases rl with
    | zero => simp [executeGo, herr0]
    | succ rl' => simp [executeGo, herr0, hnot]
  | k + 1, a, rl, e, hb, herr, herr0, hnot => by
    obtain ⟨e1, he, hrl⟩ := herr 0 (Nat.succ_pos k)
    rw [Nat.add_zero] at he
    obtain ⟨rl', rfl⟩ : ∃ rl', rl = rl' + 1 := ⟨rl - 1, by omega⟩
    have step := executeGo_run_stop display op k (a + 1) rl' e (by omega)
      (fun i hi => by
        obtain ⟨e2, he2, hrl2⟩ := herr (i + 1) (by omega)
        exact ⟨e2, by rw [show a + 1 + i = a + (i + 1) by omega]; exact he2, hrl2⟩)
      (by rw [show a + 1 + k = a + (k + 1) by omega]; exact herr0) hnot
    rw [executeGo, he]
    simp only [hrl, if_true]
    rw [step]
    rw [show a + 1 + k + 1 = a + (k + 1) + 1 by omega]

theorem executeGo_exhaust {T E : Type} (display : E → String) (op : Nat → Except E T) :
    ∀ (rl a : Nat),
      (∀ i, i ≤ rl → ∃ e, op (a + i) = .error e ∧ is_rate_limit_error (display e) = true) →
      ∃ e, op (a + rl) = .error e ∧ executeGo display op a rl = (.error e, a + rl + 1)
  | 0, a, herr => by
    obtain ⟨e, he, hrl⟩ := herr 0 (Nat.le_refl 0)
    rw [Nat.add_zero] at he
    exact ⟨e, by rw [Nat.add_zero]; exact he, by simp [executeGo, he]⟩
  | rl + 1, a, herr => by
    obtain ⟨e1, he, hrl1⟩ := herr 0 (Nat.zero_le _)
    rw [Nat.add_zero] at he
    obtain ⟨e, hlast, hrun⟩ := executeGo_exhaust display op rl (a + 1)
      (fun i hi => by
        obtain ⟨e2, he2, hrl2⟩ := herr (i + 1) (by omega)
        exact ⟨e2, by rw [show a + 1 + i = a + (i + 1) by omega]; exact he2, hrl2⟩)
    refine ⟨e, by rw [show a + (rl + 1) = a + 1 + rl by omega]; exact hlast, ?_⟩
    rw [executeGo, he]
    simp only [hrl1, if_true]
    rw [hrun]
    rw [show a + 1 + rl + 1 = a + (rl + 1) + 1 by omega]

/-- C3: retry policy of `RateLimiter::execute`.  If the first `n ≤ 3`
invocations fail with rate-limit errors (display string containing "429",
"rate limit" or "too many requests") and invocation `n` succeeds, the first
successful result is returned after exactly `n+1` invocations; if
invocation `n` fails with a non-rate-limit error, that error is returned
after exactly `n+1` invocations (no further invocation); if the first four
invocations (initial + 3 retries) all fail rate-limited, the fourth error
is returned after exactly 4 invocations. -/
theorem execute_retry_policy {T E : Type} (display : E → String)
    (op : Nat → Except E T) (n : Nat) :
    (∀ r : T, (∀ i, i < n → ∃ e, op i = .error e ∧ is_rate_limit_error (display e) = true) →
      n ≤ 3 → op n = .ok r →
      RateLimiter.execute display op = (.ok r, n + 1))
    ∧ (∀ e : E, (∀ i, i < n → ∃ e2, op i = .error e2 ∧ is_rate_limit_error (display e2) = true) →
      n ≤ 3 → op n = .error e → is_rate_limit_error (display e) = false →
      RateLimiter.execute display op = (.error e, n + 1))
    ∧ ((∀ i, i ≤ 3 → ∃ e, op i = .error e ∧ is_rate_limit_error (display e) = true) →
      ∃ e, op 3 = .error e ∧ RateLimiter.execute display op = (.error e, 4)) := by
  refine ⟨fun r herr hn hok => ?_, fun e herr hn herr0 hnot => ?_, fun herr => ?_⟩
  · have := executeGo_run_ok display op n 0 3 r hn
      (fun i hi => by simpa using herr i hi) (by simpa using hok)
    simpa [RateLimiter.execute] using this
  · have := executeGo_run_stop display op n 0 3 e hn
      (fun i hi => by simpa using herr i hi) (by simpa using herr0) hnot
    simpa [RateLimiter.execute] using this
  · have := executeGo_exhaust display op 3 0 (fun i hi => by simpa using herr i hi)
    simpa [RateLimiter.execute] using this

/-- A concrete operation: one rate-limited failure, then success. -/
def opDemo : Nat → Except String Nat := fun i =>
  if i = 0 then .error "HTTP 429 too many requests" else .ok 7

/-- A concrete operation failing with a non-rate-limit error. -/
def opDemoAuth : Nat → Except String Nat := fun _ => .error "auth failed"

/-- Witness for the C3 theorem: one retry after a 429 error returns the
first success after 2 invocations; a non-rate-limit error is returned
after 1 invocation. -/
theorem execute_retry_policy_witness :
    RateLimiter.execute id opDemo = (.ok 7, 2)
    ∧ RateLimiter.execute id opDemoAuth = (.error "auth failed", 1) :=
  ⟨(execute_retry_policy id opDemo 1).1 7
      (fun i hi => by
        have : i = 0 := by omega
        subst this
        exact ⟨"HTTP 429 too many requests", rfl, by decide⟩)
      (by decide) rfl,
   (execute_retry_policy id opDemoAuth 0).2.1 "auth failed"
      (fun i hi => absurd hi (by omega)) (by decide) rfl (by decide)⟩

/-! ## Debounced single-flight refresh orchestrator (src/system.rs:639) -/

/-- Lifecycle of one spawned debounced task: sleeping in its 50ms debounce
delay, executing the refresh body, or finished (completed, skipped or
aborted). -/
inductive Phase where
  | sleeping | running | done
deriving DecidableEq

/-- The orchestrator state.  `tasks` is the pool of spawned debounced tasks
by spawn id; `registered` models `REFRESH_STOCK_TASK` (the stored
`JoinHandle` of the most recently spawned task, src/system.rs:346);
`executing` models `REFRESH_EXECUTING` (src/system.rs:349); `started` logs
the executions that acquired the guard and began, in order; `nextId` is the
next fresh spawn id. -/
structure OrchState where
  tasks : Nat → Option (Counter × Phase)
  registered : Option Nat
  executing : Bool
  started : List (Nat × Counter)
  nextId : Nat

/-- The idle initial state: no tasks, guard free. -/
def OrchState.init : OrchState :=
  { tasks := fun _ => none, registered := none, executing := false,
    started := [], nextId := 0 }

/-- `JoinHandle::abort` on the stored handle (src/system.rs:643): a task
still sleeping in its debounce delay is cancelled and never runs its body;
a task aborted mid-execution stops and its RAII `RefreshGuard` is dropped,
releasing the guard (src/system.rs:364); a finished task is unaffected. -/
def abortTask (s : OrchState) (id : Nat) : OrchState :=
  match s.tasks id with
  | some (c, .sleeping) =>
    { s with tasks := (fun i => if i = id then some (c, .done) else s.tasks i) }
  | some (c, .running) =>
    { s with
      tasks := (fun i => if i = id then some (c, .done) else s.tasks i),
      executing := false }
  | _ => s

/-- `refresh_stock_debounced` (src/system.rs:639): abort the previously
registered task if any (`task_guard.take()` then `task.abort()`), then
spawn a fresh debounced task (sleeping in its 50ms delay) and register its
handle (`*task_guard = Some(handle)`). -/
def refreshStockDebounced (c : Counter) (s : OrchState) : OrchState :=
  let s1 := match s.registered with
    | some id => abortTask s id
    | none => s
  { s1 with
    tasks := (fun i => if i = s1.nextId then some (c, .sleeping) else s1.tasks i),
    registered := some s1.nextId,
    nextId := s1.nextId + 1 }

/-- The debounce delay of task `id` elapses (src/system.rs:649) and the
task runs `RefreshGuard::try_acquire` (src/system.rs:355): if the guard is
already held (`REFRESH_EXECUTING.swap(true)` returned true) the execution
is skipped entirely; otherwise the guard is taken and the body starts. -/
def timerFires (id : Nat) (s : OrchState) : OrchState :=
  match s.tasks id with
  | some (c, .sleeping) =>
    if s.executing then
      { s with tasks := (fun i => if i = id then some (c, .done) else s.tasks i) }
    else
      { s with
        tasks := (fun i => if i = id then some (c, .running) else s.tasks i),
        executing := true,
        started := s.started ++ [(id, c)] }
  | _ => s

/-- The refresh body of task `id` ends, successfully or not (`ok` is the
outcome and is deliberately unused): the RAII `RefreshGuard` is dropped
unconditionally, releasing `REFRESH_EXECUTING` (src/system.rs:364). -/
def bodyEnds (id : Nat) (_ok : Bool) (s : OrchState) : OrchState :=
  match s.tasks id with
  | some (c, .running) =>
    { s with
      tasks := (fun i => if i = id then some (c, .done) else s.tasks i),
      executing := false }
  | _ => s

/-- C2: debounce and single-flight of the symbol refresh.  (a) Calling
`refresh_stock_debounced(A)` then `refresh_stock_debounced(B)` while task A
(spawn id 0) is still in its delay aborts A, so running the remaining
schedule to completion performs exactly one execution, task B (spawn id 1),
and leaves no pending task.  (b) If the executing guard is set when a
debounced delay elapses, that execution is skipped entirely: nothing is
started and the guard stays with the in-flight execution.  (c) The guard is
released when an execution ends regardless of its outcome, and (d) a later
debounced task firing with the guard free always acquires it and runs. -/
theorem refresh_debounce_single_flight (A B : Counter) (ok : Bool) :
    ((refreshStockDebounced B (refreshStockDebounced A OrchState.init)).tasks 0
        = some (A, Phase.done)
      ∧ (refreshStockDebounced B (refreshStockDebounced A OrchState.init)).started = []
      ∧ (timerFires 1 (refreshStockDebounced B (refreshStockDebounced A OrchState.init))).started
          = [(1, B)]
      ∧ (bodyEnds 1 ok (timerFires 1
            (refreshStockDebounced B (refreshStockDebounced A OrchState.init)))).started
          = [(1, B)]
      ∧ (bodyEnds 1 ok (timerFires 1
            (refreshStockDebounced B (refreshStockDebounced A OrchState.init)))).executing
          = false
      ∧ ∀ i c, (bodyEnds 1 ok (timerFires 1
            (refreshStockDebounced B (refreshStockDebounced A OrchState.init)))).tasks i
          ≠ some (c, Phase.sleeping))
    ∧ (∀ (s : OrchState) (id : Nat), s.executing = true →
        (timerFires id s).started = s.started ∧ (timerFires id s).executing = true)
    ∧ (∀ (s : OrchState) (id : Nat) (c : Counter) (ok2 : Bool),
        s.tasks id = some (c, Phase.running) → (bodyEnds id ok2 s).executing = false)
    ∧ (∀ (s : OrchState) (id : Nat) (c : Counter), s.executing = false →
        s.tasks id = some (c, Phase.sleeping) →
        (timerFires id s).started = s.started ++ [(id, c)]
          ∧ (timerFires id s).executing = true) := by
  refine ⟨⟨rfl, rfl, rfl, rfl, rfl, ?_⟩, fun s id hex => ?_, fun s id c ok2 hrun => ?_,
    fun s id c hex hslp => ?_⟩
  · intro i c h
    by_cases h1 : i = 1
    · subst h1
      simp [bodyEnds, timerFires, refreshStockDebounced, abortTask, OrchState.init] at h
    · by_cases h0 : i = 0
      · subst h0
        simp [bodyEnds, timerFires, refreshStockDebounced, abortTask, OrchState.init] at h
      · simp [bodyEnds, timerFires, refreshStockDebounced, abortTask, OrchState.init,
          h0, h1] at h
  · cases hid : s.tasks id with
    | none => simp [timerFires, hid, hex]
    | some tc =>
      obtain ⟨c, ph⟩ := tc
      cases ph <;> simp [timerFires, hid, hex]
  · simp [bodyEnds, hrun]
  · simp [timerFires, hslp, hex]

/-- A concrete symbol for the C2 witness. -/
def cWitA : Counter := ⟨"A"⟩

/-- A second concrete symbol for the C2 witness. -/
def cWitB : Counter := ⟨"B"⟩

/-- A concrete state with the guard held: task 0 fired from the idle state. -/
def sWitExec : OrchState := timerFires 0 (refreshStockDebounced cWitA OrchState.init)

/-- Witness for the C2 theorem: every part applied at concrete inputs. -/
theorem refresh_debounce_single_flight_witness :
    ((bodyEnds 1 true (timerFires 1
        (refreshStockDebounced cWitB (refreshStockDebounced cWitA OrchState.init)))).started
      = [(1, cWitB)])
    ∧ ((timerFires 7 sWitExec).started = sWitExec.started
        ∧ (timerFires 7 sWitExec).executing = true)
    ∧ (bodyEnds 0 false sWitExec).executing = false
    ∧ ((timerFires 1 (refreshStockDebounced cWitB (refreshStockDebounced cWitA
          OrchState.init))).started
        = (refreshStockDebounced cWitB (refreshStockDebounced cWitA OrchState.init)).started
            ++ [(1, cWitB)]
      ∧ (timerFires 1 (refreshStockDebounced cWitB (refreshStockDebounced cWitA
          OrchState.init))).executing = true) :=
  ⟨(refresh_debounce_single_flight cWitA cWitB true).1.2.2.2.1,
   (refresh_debounce_single_flight cWitA cWitB true).2.1 sWitExec 7 rfl,
   (refresh_debounce_single_flight cWitA cWitB true).2.2.1 sWitExec 0 cWitA false rfl,
   (refresh_debounce_single_flight cWitA cWitB true).2.2.2
     (refreshStockDebounced cWitB (refreshStockDebounced cWitA OrchState.init)) 1 cWitB
     rfl rfl⟩

/-! ## Theorems for C4 (HistoryCache.update: idempotence and order) -/

/-- The series has pairwise-distinct timestamps. -/
def tsNodup (l : Klines) : Prop := (l.map Kline.timestamp).Nodup

/-- The last candle of the batch carrying the given timestamp, if any. -/
def lastWith : Klines → Int → Option Kline
  | [], _ => none
  | k :: rest, t =>
    match lastWith rest t with
    | some x => some x
    | none => if k.timestamp = t then some k else none

/-- Replace a candle by the last batch candle sharing its timestamp. -/
def substL (data : Klines) (c : Kline) : Kline := (lastWith data c.timestamp).getD c

/-- Replace every candle sharing the timestamp of `k` by `k`. -/
def mapRep (k : Kline) (l : Klines) : Klines :=
  l.map fun c => if c.timestamp = k.timestamp then k else c

theorem tsMemB_cons (k : Kline) (l : Klines) (t : Int) :
    KlineStore.tsMemB (k :: l) t = (k.timestamp == t || KlineStore.tsMemB l t) := rfl

theorem tsMemB_iff (l : Klines) (t : Int) :
    KlineStore.tsMemB l t = true ↔ t ∈ l.map Kline.timestamp := by
  simp [KlineStore.tsMemB, List.any_eq_true, List.mem_map]

theorem tsMemB_false_iff (l : Klines) (t : Int) :
    KlineStore.tsMemB l t = false ↔ t ∉ l.map Kline.timestamp := by
  rw [← tsMemB_iff]
  cases KlineStore.tsMemB l t <;> simp

theorem lastWith_ts : ∀ (data : Klines) (t : Int) (x : Kline),
    lastWith data t = some x → x.timestamp = t
  | [], _, _, h => by simp [lastWith] at h
  | k :: rest, t, x, h => by
    simp only [lastWith] at h
    cases hr : lastWith rest t with
    | some y =>
      rw [hr] at h
      cases h
      exact lastWith_ts rest t x hr
    | none =>
      rw [hr] at h
      by_cases hk : k.timestamp = t
      · rw [if_pos hk] at h
        cases h
        exact hk
      · rw [if_neg hk] at h
        cases h

theorem lastWith_none_iff : ∀ (data : Klines) (t : Int),
    lastWith data t = none ↔ KlineStore.tsMemB data t = false
  | [], t => by simp [lastWith, KlineStore.tsMemB]
  | k :: rest, t => by
    rw [tsMemB_cons]
    simp only [lastWith]
    cases hr : lastWith rest t with
    | some y =>
      have : KlineStore.tsMemB rest t = true := by
        cases hb : KlineStore.tsMemB rest t
        · rw [(lastWith_none_iff rest t).2 hb] at hr; cases hr
        · rfl
      simp [this]
    | none =>
      have hrb : KlineStore.tsMemB rest t = false := (lastWith_none_iff rest t).1 hr
      by_cases hk : k.timestamp = t
      · simp [hk, hrb]
      · simp [hk, hrb]

theorem substL_nil (c : Kline) : substL [] c = c := rfl

theorem substL_of_not_mem {data : Klines} {c : Kline}
    (h : KlineStore.tsMemB data c.timestamp = false) : substL data c = c := by
  unfold substL
  rw [(lastWith_none_iff _ _).2 h]
  rfl

theorem substL_ts (data : Klines) (c : Kline) : (substL data c).timestamp = c.timestamp := by
  unfold substL
  cases h : lastWith data c.timestamp with
  | none => rfl
  | some x => exact lastWith_ts data c.timestamp x h

theorem substL_cons (k : Kline) (rest : Klines) (c : Kline) :
    substL rest (if c.timestamp = k.timestamp then k else c) = substL (k :: rest) c := by
  by_cases hct : c.timestamp = k.timestamp
  · rw [if_pos hct]
    unfold substL
    simp only [lastWith, hct]
    cases hr : lastWith rest k.timestamp with
    | some x => simp
    | none => simp
  · rw [if_neg hct]
    unfold substL
    simp only [lastWith]
    cases hr : lastWith rest c.timestamp with
    | some x => simp
    | none => rw [if_neg fun e => hct e.symm]

theorem mapRep_tsmap (k : Kline) : ∀ l : Klines,
    (mapRep k l).map Kline.timestamp = l.map Kline.timestamp
  | [] => rfl
  | c :: cs => by
    simp only [mapRep, List.map_cons] at *
    by_cases hc : c.timestamp = k.timestamp
    · rw [if_pos hc, hc]
      exact congrArg _ (mapRep_tsmap k cs)
    · rw [if_neg hc]
      exact congrArg _ (mapRep_tsmap k cs)

theorem mapRep_of_no_ts (k : Kline) : ∀ l : Klines,
    (∀ c ∈ l, c.timestamp ≠ k.timestamp) → mapRep k l = l
  | [], _ => rfl
  | c :: cs, h => by
    simp only [mapRep, List.map_cons]
    rw [if_neg (h c (List.mem_cons_self c cs))]
    exact congrArg _ (mapRep_of_no_ts k cs fun x hx => h x (List.mem_cons_of_mem c hx))

theorem replaceFirst_eq_mapRep {k : Kline} : ∀ {l : Klines}, tsNodup l →
    KlineStore.replaceFirst l k = mapRep k l
  | [], _ => rfl
  | x :: xs, hnd => by
    have hx : x.timestamp ∉ xs.map Kline.timestamp := by
      have := hnd
      simp only [tsNodup, List.map_cons, List.nodup_cons] at this
      exact this.1
    have hxs : tsNodup xs := by
      have := hnd
      simp only [tsNodup, List.map_cons, List.nodup_cons] at this
      exact this.2
    simp only [KlineStore.replaceFirst, mapRep, List.map_cons]
    by_cases hts : x.timestamp = k.timestamp
    · rw [if_pos hts, if_pos hts]
      have h2 : mapRep k xs = xs := mapRep_of_no_ts k xs fun c hc e => by
        apply hx
        rw [← hts] at e
        rw [← e]
        exact List.mem_map_of_mem Kline.timestamp hc
      rw [show List.map (fun c => if c.timestamp = k.timestamp then k else c) xs
          = mapRep k xs from rfl, h2]
    · rw [if_neg hts, if_neg hts]
      exact congrArg _ (replaceFirst_eq_mapRep hxs)

theorem replaceFirst_tsmap (k : Kline) : ∀ l : Klines,
    (KlineStore.replaceFirst l k).map Kline.timestamp = l.map Kline.timestamp
  | [] => rfl
  | x :: xs => by
    simp only [KlineStore.replaceFirst]
    by_cases hts : x.timestamp = k.timestamp
    · rw [if_pos hts]
      simp only [List.map_cons]
      rw [hts]
    · rw [if_neg hts]
      simp only [List.map_cons]
      exact congrArg _ (replaceFirst_tsmap k xs)

theorem mergeStep_tsmap (acc : Klines) (k : Kline) :
    (KlineStore.mergeStep acc k).map Kline.timestamp
      = if KlineStore.tsMemB acc k.timestamp then acc.map Kline.timestamp
        else acc.map Kline.timestamp ++ [k.timestamp] := by
  unfold KlineStore.mergeStep
  by_cases h : KlineStore.tsMemB acc k.timestamp
  · rw [if_pos h, if_pos h]
    exact replaceFirst_tsmap k acc
  · rw [if_neg h, if_neg h]
    simp

theorem mergeStep_nodup {acc : Klines} (k : Kline) (h : tsNodup acc) :
    tsNodup (KlineStore.mergeStep acc k) := by
  unfold tsNodup
  rw [mergeStep_tsmap]
  by_cases hm : KlineStore.tsMemB acc k.timestamp
  · rw [if_pos hm]
    exact h
  · rw [if_neg hm]
    have hk : k.timestamp ∉ acc.map Kline.timestamp := by
      rw [← tsMemB_false_iff]
      cases hb : KlineStore.tsMemB acc k.timestamp
      · rfl
      · exact absurd hb hm
    rw [List.nodup_append]
    exact ⟨h, List.nodup_singleton _, fun a ha hb => hk ((List.mem_singleton.1 hb) ▸ ha)⟩

theorem tsMemB_eq_of_tsmap {l₁ l₂ : Klines}
    (h : l₁.map Kline.timestamp = l₂.map Kline.timestamp) (t : Int) :
    KlineStore.tsMemB l₁ t = KlineStore.tsMemB l₂ t := by
  cases hb : KlineStore.tsMemB l₂ t
  · rw [tsMemB_false_iff, h, ← tsMemB_false_iff]
    exact hb
  · rw [tsMemB_iff, h, ← tsMemB_iff]
    exact hb

theorem mergeKl_nodup : ∀ (data acc : Klines), tsNodup acc →
    tsNodup (KlineStore.mergeKl acc data)
  | [], _, h => h
  | k :: rest, acc, h =>
    mergeKl_nodup rest (KlineStore.mergeStep acc k) (mergeStep_nodup k h)

theorem mergeKl_tsmap_sub : ∀ (data acc : Klines) (t : Int),
    t ∈ acc.map Kline.timestamp → t ∈ (KlineStore.mergeKl acc data).map Kline.timestamp
  | [], _, _, h => h
  | k :: rest, acc, t, h => by
    apply mergeKl_tsmap_sub rest (KlineStore.mergeStep acc k) t
    rw [mergeStep_tsmap]
    by_cases hm : KlineStore.tsMemB acc k.timestamp
    · rw [if_pos hm]; exact h
    · rw [if_neg hm]; exact List.mem_append_left _ h

theorem mergeKl_tsmem_data : ∀ (data acc : Klines) (k : Kline), k ∈ data →
    k.timestamp ∈ (KlineStore.mergeKl acc data).map Kline.timestamp
  | [], _, _, h => absurd h (List.not_mem_nil _)
  | j :: rest, acc, k, h => by
    rw [show KlineStore.mergeKl acc (j :: rest)
        = KlineStore.mergeKl (KlineStore.mergeStep acc j) rest from rfl]
    rcases List.mem_cons.1 h with he | hm
    · subst he
      apply mergeKl_tsmap_sub rest (KlineStore.mergeStep acc k)
      rw [mergeStep_tsmap]
      by_cases hm2 : KlineStore.tsMemB acc k.timestamp
      · rw [if_pos hm2]
        exact (tsMemB_iff acc k.timestamp).1 hm2
      · rw [if_neg hm2]
        exact List.mem_append_right _ (List.mem_singleton_self _)
    · exact mergeKl_tsmem_data rest (KlineStore.mergeStep acc j) k hm

theorem mem_mapRep_iff_of_ne {c k : Kline} {l : Klines}
    (hne : c.timestamp ≠ k.timestamp) : c ∈ mapRep k l ↔ c ∈ l := by
  simp only [mapRep, List.mem_map]
  constructor
  · rintro ⟨c0, hc0, heq⟩
    by_cases h0 : c0.timestamp = k.timestamp
    · rw [if_pos h0] at heq
      exact absurd (heq ▸ rfl : c.timestamp = k.timestamp) hne
    · rw [if_neg h0] at heq
      exact heq ▸ hc0
  · intro hc
    exact ⟨c, hc, if_neg hne⟩

theorem mem_mergeStep_of_ts_eq {acc : Klines} {c k : Kline} (hnd : tsNodup acc)
    (hmem : c ∈ KlineStore.mergeStep acc k) (hts : c.timestamp = k.timestamp) : c = k := by
  unfold KlineStore.mergeStep at hmem
  by_cases hm : KlineStore.tsMemB acc k.timestamp
  · rw [if_pos hm, replaceFirst_eq_mapRep hnd] at hmem
    simp only [mapRep, List.mem_map] at hmem
    obtain ⟨c0, hc0, heq⟩ := hmem
    by_cases h0 : c0.timestamp = k.timestamp
    · rw [if_pos h0] at heq
      exact heq.symm
    · rw [if_neg h0] at heq
      rw [← heq] at hts
      exact absurd hts h0
  · rw [if_neg hm] at hmem
    rcases List.mem_append.1 hmem with hin | hin
    · exfalso
      apply hm
      rw [tsMemB_iff]
      rw [← hts]
      exact List.mem_map_of_mem Kline.timestamp hin
    · exact List.mem_singleton.1 hin

theorem mergeKl_untouched : ∀ (data acc : Klines), tsNodup acc →
    ∀ c : Kline, KlineStore.tsMemB data c.timestamp = false →
    (c ∈ KlineStore.mergeKl acc data ↔ c ∈ acc)
  | [], _, _, _, _ => Iff.rfl
  | k :: rest, acc, hnd, c, hmem => by
    have hsplit : (k.timestamp == c.timestamp) = false
        ∧ KlineStore.tsMemB rest c.timestamp = false := by
      rw [tsMemB_cons] at hmem
      exact Bool.or_eq_false_iff.1 hmem
    have hne : k.timestamp ≠ c.timestamp := by
      intro e
      rw [e] at hsplit
      simp at hsplit
    have step := mergeKl_untouched rest (KlineStore.mergeStep acc k)
      (mergeStep_nodup k hnd) c hsplit.2
    rw [show KlineStore.mergeKl acc (k :: rest)
        = KlineStore.mergeKl (KlineStore.mergeStep acc k) rest from rfl]
    rw [step]
    unfold KlineStore.mergeStep
    by_cases hm : KlineStore.tsMemB acc k.timestamp
    · rw [if_pos hm, replaceFirst_eq_mapRep hnd]
      exact mem_mapRep_iff_of_ne (fun e => hne e.symm)
    · rw [if_neg hm]
      simp only [List.mem_append, List.mem_singleton]
      constructor
      · rintro (h | h)
        · exact h
        · exact absurd (h ▸ rfl : c.timestamp = k.timestamp) (fun e => hne e.symm)
      · exact fun h => Or.inl h

theorem mergeKl_lastWith : ∀ (data acc : Klines), tsNodup acc →
    ∀ c : Kline, c ∈ KlineStore.mergeKl acc data →
    KlineStore.tsMemB data c.timestamp = true →
    lastWith data c.timestamp = some c
  | [], _, _, _, _, hmem => by simp [KlineStore.tsMemB] at hmem
  | k :: rest, acc, hnd, c, hc, hmem => by
    by_cases hr : KlineStore.tsMemB rest c.timestamp = true
    · have := mergeKl_lastWith rest (KlineStore.mergeStep acc k)
        (mergeStep_nodup k hnd) c hc hr
      simp only [lastWith, this]
    · have hrf : KlineStore.tsMemB rest c.timestamp = false := by
        cases hb : KlineStore.tsMemB rest c.timestamp
        · rfl
        · exact absurd hb hr
      have hkc : k.timestamp = c.timestamp := by
        rw [tsMemB_cons] at hmem
        rcases Bool.or_eq_true_iff.1 hmem with h | h
        · exact beq_iff_eq.1 h
        · exact absurd h hr
      have hnone : lastWith rest c.timestamp = none := (lastWith_none_iff _ _).2 hrf
      have hacc' : c ∈ KlineStore.mergeStep acc k :=
        (mergeKl_untouched rest (KlineStore.mergeStep acc k)
          (mergeStep_nodup k hnd) c hrf).1 hc
      have hck : c = k := mem_mergeStep_of_ts_eq hnd hacc' hkc.symm
      simp only [lastWith, hnone]
      rw [if_pos hkc, hck]

theorem mergeKl_all_present : ∀ (data acc : Klines), tsNodup acc →
    (∀ k ∈ data, KlineStore.tsMemB acc k.timestamp = true) →
    KlineStore.mergeKl acc data = acc.map (substL data)
  | [], acc, _, _ => by
    rw [show KlineStore.mergeKl acc [] = acc from rfl]
    rw [List.map_congr_left fun c _ => substL_nil c]
    exact (List.map_id acc).symm
  | k :: rest, acc, hnd, hall => by
    have hk : KlineStore.tsMemB acc k.timestamp = true := hall k (List.mem_cons_self k rest)
    have hstep : KlineStore.mergeStep acc k = mapRep k acc := by
      unfold KlineStore.mergeStep
      rw [if_pos hk]
      exact replaceFirst_eq_mapRep hnd
    have hnd' : tsNodup (mapRep k acc) := by
      unfold tsNodup
      rw [mapRep_tsmap]
      exact hnd
    have hall' : ∀ k' ∈ rest, KlineStore.tsMemB (mapRep k acc) k'.timestamp = true := by
      intro k' hk'
      rw [tsMemB_eq_of_tsmap (mapRep_tsmap k acc) k'.timestamp]
      exact hall k' (List.mem_cons_of_mem k hk')
    have step := mergeKl_all_present rest (mapRep k acc) hnd' hall'
    rw [show KlineStore.mergeKl acc (k :: rest)
        = KlineStore.mergeKl (KlineStore.mergeStep acc k) rest from rfl]
    rw [hstep, step]
    unfold mapRep
    rw [List.map_map]
    exact List.map_congr_left fun c _ => substL_cons k rest c

/-- The normalized store key used by both `by_pagination` and `update`. -/
def KlineStore.normKey (c : Counter) (kt : KlineType) (adj : AdjustType) : StoreKey :=
  (c, kt, (KlineStore.normalize kt).getD adj)

/-- The series currently stored under a key (empty when absent). -/
def KlineStore.storedSeries (store : Store) (key : StoreKey) : Klines :=
  ((store key).map Prod.snd).getD []

theorem tsNodup_of_perm {l₁ l₂ : Klines} (h : l₁.Perm l₂) : tsNodup l₂ → tsNodup l₁ :=
  ((h.map Kline.timestamp).nodup_iff).2

/-- C4: `HistoryCache.update` is idempotent and order-preserving.  For a
stored series with pairwise-distinct timestamps (the invariant every stored
series satisfies, per the data model): applying the same batch twice equals
applying it once; after one application the stored entry of the normalized
key has its flag overwritten by `has_more` and a series that is strictly
ascending by timestamp (hence duplicate-free), contains every incoming
timestamp, carries at each incoming timestamp the last batch candle with
that timestamp (incoming candles replace matching ones), keeps candles at
non-incoming timestamps exactly as stored before (otherwise-appended,
nothing else disturbed), and every other key of the store is unchanged. -/
theorem history_update_idempotent_sorted (store : Store) (c : Counter) (kt : KlineType)
    (adj : AdjustType) (data : Klines) (more : Bool)
    (hnd : tsNodup (KlineStore.storedSeries store (KlineStore.normKey c kt adj))) :
    KlineStore.update (KlineStore.update store c kt adj data more) c kt adj data more
      = KlineStore.update store c kt adj data more
    ∧ (∃ series : Klines,
        KlineStore.update store c kt adj data more (KlineStore.normKey c kt adj)
            = some (more, series)
          ∧ series.Pairwise (fun a b => a.timestamp < b.timestamp)
          ∧ (∀ k ∈ data, k.timestamp ∈ series.map Kline.timestamp)
          ∧ (∀ x ∈ series, KlineStore.tsMemB data x.timestamp = true →
              lastWith data x.timestamp = some x)
          ∧ (∀ x : Kline, KlineStore.tsMemB data x.timestamp = false →
              (x ∈ series ↔ x ∈ KlineStore.storedSeries store (KlineStore.normKey c kt adj))))
    ∧ (∀ k' : StoreKey, k' ≠ KlineStore.normKey c kt adj →
        KlineStore.update store c kt adj data more k' = store k') := by
  have hupd : ∀ (st : Store) (k' : StoreKey),
      KlineStore.update st c kt adj data more k'
        = if k' = KlineStore.normKey c kt adj
          then some (more, KlineStore.sortKl (KlineStore.mergeKl
            (KlineStore.storedSeries st (KlineStore.normKey c kt adj)) data))
          else st k' := fun st k' => rfl
  have hentry : KlineStore.update store c kt adj data more (KlineStore.normKey c kt adj)
      = some (more, KlineStore.sortKl (KlineStore.mergeKl
          (KlineStore.storedSeries store (KlineStore.normKey c kt adj)) data)) := by
    rw [hupd store, if_pos rfl]
  have hndm : tsNodup (KlineStore.mergeKl
      (KlineStore.storedSeries store (KlineStore.normKey c kt adj)) data) :=
    mergeKl_nodup data _ hnd
  have hperm : (KlineStore.sortKl (KlineStore.mergeKl
      (KlineStore.storedSeries store (KlineStore.normKey c kt adj)) data)).Perm
        (KlineStore.mergeKl
          (KlineStore.storedSeries store (KlineStore.normKey c kt adj)) data) :=
    List.perm_insertionSort _ _
  have hnds : tsNodup (KlineStore.sortKl (KlineStore.mergeKl
      (KlineStore.storedSeries store (KlineStore.normKey c kt adj)) data)) :=
    tsNodup_of_perm hperm hndm
  have hsorted : List.Sorted KlineStore.tsLe (KlineStore.sortKl (KlineStore.mergeKl
      (KlineStore.storedSeries store (KlineStore.normKey c kt adj)) data)) :=
    List.sorted_insertionSort _ _
  refine ⟨?_, ⟨_, hentry, ?_, ?_, ?_, ?_⟩, fun k' hk' => by rw [hupd store, if_neg hk']⟩
  · -- idempotence
    have hall : ∀ k ∈ data, KlineStore.tsMemB (KlineStore.sortKl (KlineStore.mergeKl
        (KlineStore.storedSeries store (KlineStore.normKey c kt adj)) data)) k.timestamp
          = true := fun k hk =>
      (tsMemB_iff _ _).2 ((hperm.map Kline.timestamp).mem_iff.2
        (mergeKl_tsmem_data data _ k hk))
    have hm2 := mergeKl_all_present data _ hnds hall
    have hsubst_id : ∀ x ∈ KlineStore.sortKl (KlineStore.mergeKl
        (KlineStore.storedSeries store (KlineStore.normKey c kt adj)) data),
        substL data x = x := by
      intro x hx
      by_cases ht : KlineStore.tsMemB data x.timestamp = true
      · have hlw := mergeKl_lastWith data _ hnd x (hperm.mem_iff.1 hx) ht
        unfold substL
        rw [hlw]
        rfl
      · refine substL_of_not_mem ?_
        cases hb : KlineStore.tsMemB data x.timestamp
        · rfl
        · exact absurd hb ht
    have hmapid : (KlineStore.sortKl (KlineStore.mergeKl
        (KlineStore.storedSeries store (KlineStore.normKey c kt adj)) data)).map
          (substL data)
        = KlineStore.sortKl (KlineStore.mergeKl
            (KlineStore.storedSeries store (KlineStore.normKey c kt adj)) data) :=
      (List.map_congr_left hsubst_id).trans (List.map_id _)
    have hsid : KlineStore.sortKl (KlineStore.sortKl (KlineStore.mergeKl
        (KlineStore.storedSeries store (KlineStore.normKey c kt adj)) data))
        = KlineStore.sortKl (KlineStore.mergeKl
            (KlineStore.storedSeries store (KlineStore.normKey c kt adj)) data) :=
      List.Sorted.insertionSort_eq hsorted
    funext k'
    rw [hupd (KlineStore.update store c kt adj data more) k', hupd store k']
    by_cases hk' : k' = KlineStore.normKey c kt adj
    · rw [if_pos hk', if_pos hk']
      have hpre2 : KlineStore.storedSeries (KlineStore.update store c kt adj data more)
          (KlineStore.normKey c kt adj)
          = KlineStore.sortKl (KlineStore.mergeKl
              (KlineStore.storedSeries store (KlineStore.normKey c kt adj)) data) := by
        unfold KlineStore.storedSeries
        rw [hentry]
        rfl
      rw [hpre2, hm2, hmapid, hsid]
    · rw [if_neg hk', if_neg hk']
  · -- strictly ascending
    have hne : (KlineStore.sortKl (KlineStore.mergeKl
        (KlineStore.storedSeries store (KlineStore.normKey c kt adj)) data)).Pairwise
          (fun a b => a.timestamp ≠ b.timestamp) :=
      List.pairwise_map.1 hnds
    exact (hsorted.and hne).imp fun h => lt_of_le_of_ne h.1 h.2
  · -- every incoming timestamp present
    intro k hk
    exact (hperm.map Kline.timestamp).mem_iff.2 (mergeKl_tsmem_data data _ k hk)
  · -- at incoming timestamps, the stored candle is the last batch candle
    intro x hx ht
    exact mergeKl_lastWith data _ hnd x (hperm.mem_iff.1 hx) ht
  · -- non-incoming timestamps untouched
    intro x hx
    exact hperm.mem_iff.trans (mergeKl_untouched data _ hnd x hx)

/-- Witness for the C4 theorem: re-applying the concrete 5-candle batch to
the store it produced changes nothing. -/
theorem history_update_idempotent_sorted_witness :
    KlineStore.update (KlineStore.update emptyStore aapl .PerDay .NoAdjust demo5 false)
        aapl .PerDay .NoAdjust demo5 false
      = KlineStore.update emptyStore aapl .PerDay .NoAdjust demo5 false :=
  (history_update_idempotent_sorted emptyStore aapl .PerDay .NoAdjust demo5 false
    (by simp [KlineStore.storedSeries, emptyStore, tsNodup])).1
